import Mathlib

/-
Verification of the batch prompt execution engine and tag-extraction
post-processor of the airtable-ai-field-clone repository.

The embedding covers, from src/ai_processor.py:
  build_prompt_with_references, handle_api_errors, _call_responses_api
  (retry structure), execute_batch_prompts (as a small-step scheduler over
  cooperative tasks), and from src/response_parser.py:
  parse_xml_tags and extract_tags_from_dataframe.

Python strings are modelled as Lean String / List Char; Python dicts of
row values as association lists; NaN dataframe cells as Option.none;
exceptions as an explicit record of type name and message; the OpenAI
client behaviour as an oracle from attempt index to Except outcome.
-/

/-- Characters treated as whitespace by the embedding: the ASCII fragment of
Python's str.strip default set and of the regex class backslash-s
(space, tab, newline, carriage return, vertical tab, form feed). -/
def isWsChar (c : Char) : Bool :=
  c = ' ' || c = '\t' || c = '\n' || c = '\x0d' || c = '\x0b' || c = '\x0c'

/-- Python str.strip(): drop whitespace from both ends of a character list. -/
def stripWs (l : List Char) : List Char :=
  ((l.dropWhile isWsChar).reverse.dropWhile isWsChar).reverse

/-- Lower-case image of a character list, modelling re.IGNORECASE matching
and Python str.lower for ASCII text. -/
def toLowerList (l : List Char) : List Char := l.map Char.toLower

/-- Case-insensitive equality of two character lists. -/
def lowerEq (a b : List Char) : Bool := decide (toLowerList a = toLowerList b)

/-- Does the list l start with pattern p, compared case-insensitively? -/
def startsWithCI (p l : List Char) : Bool := lowerEq p (l.take p.length)

/-- Leftmost case-insensitive occurrence of the literal pattern p in l:
returns the part of l before the occurrence and the part after it.
This models re.search with an IGNORECASE literal pattern. -/
def splitFirstCI (p : List Char) : List Char → Option (List Char × List Char)
  | [] => if startsWithCI p [] then some ([], ([] : List Char).drop p.length) else none
  | c :: r =>
      if startsWithCI p (c :: r) then some ([], (c :: r).drop p.length)
      else (splitFirstCI p r).map fun q => (c :: q.1, q.2)

/-- Whether the literal pattern p occurs in l, case-insensitively. -/
def containsCI (p l : List Char) : Bool := (splitFirstCI p l).isSome

/-- Case-sensitive substring test (Python's "p in s" operator). -/
def containsSub (p : List Char) : List Char → Bool
  | [] => p.isEmpty
  | c :: r => p.isPrefixOf (c :: r) || containsSub p r

/-- The literal opening tag text built by parse_xml_tags for a tag name. -/
def openTagChars (tag : String) : List Char := '<' :: (tag.toList ++ ['>'])

/-- The literal closing tag text built by parse_xml_tags for a tag name. -/
def closeTagChars (tag : String) : List Char := '<' :: '/' :: (tag.toList ++ ['>'])

/-- Inner content for one tag, from src/response_parser.py parse_xml_tags
(and the identical extract_xml_content of src/ai_processor.py): the first
case-insensitive non-greedy match of "open tag, any characters including
newlines, close tag"; its inner text is stripped; an absent pair yields "".
The regex open-tag/any/close-tag shape with a non-greedy body is realised
as: first occurrence of the open tag, then the first occurrence of the
close tag after it.  Tag names are assumed regex-literal (the source only
uses alphanumeric tag names). -/
def parseOneTag (text : String) (tag : String) : String :=
  match splitFirstCI (openTagChars tag) text.toList with
  | none => ""
  | some (_, rest) =>
      match splitFirstCI (closeTagChars tag) rest with
      | none => ""
      | some (inner, _) => String.mk (stripWs inner)

/-- Whether text has an open/close pair for the tag, i.e. whether the
parse_xml_tags regex matches at all for this tag. -/
def hasTagPair (text : String) (tag : String) : Bool :=
  match splitFirstCI (openTagChars tag) text.toList with
  | none => false
  | some (_, rest) => (splitFirstCI (closeTagChars tag) rest).isSome

/-- src/response_parser.py parse_xml_tags: the returned dict, as an
association list from tag name to extracted content. -/
def parse_xml_tags (text : String) (tags : List String) : List (String × String) :=
  tags.map fun t => (t, parseOneTag text t)

/-- A dataframe cell: none models a NaN / missing value, some s a value
whose str() form is s.  A column is a list of cells, a dataframe a list
of columns (the source iterates columns outermost and treats each column
independently, so a column-major model is faithful). -/
def cellToStr : Option String → String
  | none => ""
  | some s => s

/-- Phase-1 test of extract_tags_from_dataframe on one cell: the cell is
non-empty as a string and parse_xml_tags yields non-empty stripped content
for the tag. -/
def cellHasNonEmptyTag (tag : String) (cell : Option String) : Bool :=
  let s := cellToStr cell
  !s.isEmpty && !(stripWs (parseOneTag s tag).toList).isEmpty

/-- Phase 1 of extract_tags_from_dataframe: a column is tag-bearing when
any of its cells passes the non-empty-content test. -/
def colTagBearing (tag : String) (col : List (Option String)) : Bool :=
  col.any (cellHasNonEmptyTag tag)

/-- Phase 2 of extract_tags_from_dataframe on one cell of a tag-bearing
column: non-empty cells are replaced by the extracted content, empty or
NaN cells by the empty string (both assignments store a str). -/
def replaceCell (tag : String) (cell : Option String) : Option String :=
  let s := cellToStr cell
  if s.isEmpty then some "" else some (parseOneTag s tag)

/-- extract_tags_from_dataframe on one column: tag-bearing columns have
every cell replaced, other columns are returned unchanged. -/
def processColumn (tag : String) (col : List (Option String)) : List (Option String) :=
  if colTagBearing tag col then col.map (replaceCell tag) else col

/-- src/response_parser.py extract_tags_from_dataframe: column-wise tag
extraction preserving the dataframe shape.  The source's early return for
an empty dataframe coincides with mapping over the empty list. -/
def extract_tags_from_dataframe (df : List (List (Option String))) (tag : String) :
    List (List (Option String)) :=
  df.map (processColumn tag)

/-- Characters admitted by the template placeholder name class
[a-zA-Z0-9_- ] of _DOUBLE_BRACE_PATTERN in src/ai_processor.py. -/
def isNameChar (c : Char) : Bool :=
  c.isAlpha || c.isDigit || c = '_' || c = '-' || c = ' '

/-- Scan for the first "}}" in l; returns the content before it and the
remainder after it.  A placeholder match of _DOUBLE_BRACE_PATTERN must end
at the first "}}" after its "{{", because the brace characters are in
neither the name class nor the whitespace class.  The embedded bound
certifies that the remainder is shorter than the input. -/
def findCloseBr : (l : List Char) →
    Option {q : List Char × List Char // q.2.length + 2 ≤ l.length}
  | [] => none
  | [_] => none
  | c :: d :: r =>
      if c = '}' ∧ d = '}' then some ⟨([], r), by simp⟩
      else (findCloseBr (d :: r)).map fun q =>
        ⟨(c :: q.1.1, q.1.2), by have := q.2; simp at this ⊢; omega⟩

/-- Whether the text strictly between "{{" and "}}" matches the regex
fragment backslash-s* ([a-zA-Z0-9_- ]+) backslash-s*.  A decomposition
exists exactly when either the whitespace-stripped content is non-empty
and made of name-class characters, or the content is all whitespace and
contains a space (a space belongs to both classes). -/
def validContent (content : List Char) : Bool :=
  (!(stripWs content).isEmpty && (stripWs content).all isNameChar) ||
    (content.all isWsChar && content.any (fun c => c == ' '))

/-- The substituted value for a placeholder key, from
build_prompt_with_references: row_values.get(key, "") followed by
"" if value is None else str(value).  Row values are an association list;
none models a None value, some v a value whose str() form is v. -/
def lookupVal (m : List (String × Option String)) (k : String) : String :=
  match m.lookup k with
  | none => ""
  | some none => ""
  | some (some v) => v

/-- The single left-to-right substitution pass of
_DOUBLE_BRACE_PATTERN.sub in build_prompt_with_references.  At each
position: on "{{", the candidate content runs to the first "}}"; if it
matches the placeholder pattern the stripped name is looked up and the
scan resumes after the match, otherwise the scan advances one character
(re.sub resumes at the next position).  For every engine-chosen greedy
split of the content, group(1).strip() equals the fully stripped content,
which is what the lookup uses. -/
def renderList (m : List (String × Option String)) : List Char → List Char
  | [] => []
  | '{' :: '{' :: r =>
      match findCloseBr r with
      | some q =>
          if validContent q.1.1 then
            (lookupVal m (String.mk (stripWs q.1.1))).toList ++ renderList m q.1.2
          else '{' :: renderList m ('{' :: r)
      | none => '{' :: renderList m ('{' :: r)
  | c :: r => c :: renderList m r
termination_by l => l.length
decreasing_by
  · have := q.2
    simp at this ⊢
    omega
  · simp
  · simp

/-- src/ai_processor.py build_prompt_with_references. -/
def build_prompt_with_references (template : String)
    (row_values : List (String × Option String)) : String :=
  String.mk (renderList row_values template.toList)

/-- A segment of a template: literal text, or one well-formed placeholder
"{{" ws1 name ws2 "}}". -/
inductive TemplateSeg where
  | lit (s : List Char)
  | ref (ws1 : List Char) (name : List Char) (ws2 : List Char)

/-- Well-formedness of a segment: literal text carries no open brace;
a placeholder has whitespace padding, and a non-empty name over the
placeholder class whose first and last characters are not whitespace
(leading and trailing blanks belong to the padding). -/
def segOK : TemplateSeg → Bool
  | .lit s => !s.contains '{'
  | .ref ws1 name ws2 =>
      ws1.all isWsChar && ws2.all isWsChar && !name.isEmpty &&
        name.all isNameChar &&
        !isWsChar (name.headD 'a') && !isWsChar (name.reverse.headD 'a')

/-- The literal text of a segment list, i.e. the template it denotes. -/
def flattenTemplate : List TemplateSeg → List Char
  | [] => []
  | .lit s :: rest => s ++ flattenTemplate rest
  | .ref ws1 name ws2 :: rest =>
      '{' :: '{' :: (ws1 ++ name ++ ws2 ++ '}' :: '}' :: flattenTemplate rest)

/-- The substitution the specification prescribes for a segment list:
literal text verbatim; each placeholder replaced by the stringified
mapped value, by "" when the name is absent, and by "" when its value is
None. -/
def renderedTemplate (m : List (String × Option String)) : List TemplateSeg → List Char
  | [] => []
  | .lit s :: rest => s ++ renderedTemplate m rest
  | .ref _ name _ :: rest =>
      (match m.lookup (String.mk name) with
        | none => ""
        | some none => ""
        | some (some v) => v).toList ++ renderedTemplate m rest

/-- A Python exception value, abstracted to what handle_api_errors reads:
type(error).__name__ and str(error). -/
structure Exc where
  typeName : String
  message : String
deriving DecidableEq

/-- The structured error dictionary built by handle_api_errors. -/
structure ApiErrorRecord where
  error_type : String
  message : String
  is_rate_limit : Bool
  is_timeout : Bool
  raw : String
deriving DecidableEq

/-- src/ai_processor.py handle_api_errors. -/
def handle_api_errors (e : Exc) : ApiErrorRecord :=
  { error_type := e.typeName
    message := e.message
    is_rate_limit := containsSub "Rate".toList e.message.toList ||
      containsSub "429".toList e.message.toList
    is_timeout := containsSub "timeout".toList (toLowerList e.message.toList)
    raw := e.message }

/-- One retry loop over a client oracle: outcomes gives the result of the
n-th underlying client.responses.create call overall; start is the index
of the next call; the second argument counts the retries remaining after
the current attempt (so an argument of 5 means 6 total attempts, as in
stop_after_attempt(6) and the fallback loop's range(1, 7)).  Returns the
final outcome together with the number of calls consumed; when the last
attempt fails its exception is the propagated result. -/
def retryFrom (outcomes : Nat → Except Exc String) : Nat → Nat → Except Exc String × Nat
  | start, 0 => (outcomes start, 1)
  | start, n + 1 =>
      match outcomes start with
      | .ok t => (.ok t, 1)
      | .error _ =>
          let r := retryFrom outcomes (start + 1) n
          (r.1, r.2 + 1)

/-- src/ai_processor.py _call_responses_api, abstracted over whether the
tenacity import succeeds.  The tenacity-decorated inner call sits inside
the same try whose broad except introduces the manual fallback loop, so
when tenacity is present and exhausts its six attempts, the raised
RetryError is caught and the fallback loop performs six further attempts;
only the fallback's final exception propagates.  Returns the overall
outcome and the total number of underlying API calls made. -/
def call_responses_api (tenacityAvailable : Bool)
    (outcomes : Nat → Except Exc String) : Except Exc String × Nat :=
  if tenacityAvailable then
    let r1 := retryFrom outcomes 0 5
    match r1.1 with
    | .ok t => (.ok t, r1.2)
    | .error _ =>
        let r2 := retryFrom outcomes r1.2 5
        (r2.1, r1.2 + r2.2)
  else retryFrom outcomes 0 5

/-- src/ai_processor.py PromptJob. -/
structure PromptJob where
  row_index : Int
  column_name : String
  prompt : String
  needs_search : Bool
deriving DecidableEq

/-- src/ai_processor.py PromptResult. -/
structure PromptResult where
  row_index : Int
  column_name : String
  text : String
  error : Option ApiErrorRecord
deriving DecidableEq

/-- The environment of one execute_batch_prompts run: the job list, an
oracle giving the final outcome of each job's _call_responses_api call
(retry behaviour included), the explicit max_concurrent_requests
argument, the parsed MAX_CONCURRENT_REQUESTS environment value (none for
unset or empty), and whether the progress callback raises at its k-th
invocation (such an exception is caught and ignored by run_one, so
nothing in the semantics reads this field). -/
structure BatchEnv where
  jobs : List PromptJob
  outcomes : Nat → Except Exc String
  limitArg : Option Int
  envVar : Option Int
  cbFails : Nat → Bool

/-- The limit computed by execute_batch_prompts before clamping:
the explicit argument if given, else the environment value, else 5. -/
def resolvedLimit (env : BatchEnv) : Int :=
  match env.limitArg with
  | some v => v
  | none =>
      match env.envVar with
      | some v => v
      | none => 5

/-- The number of permits of asyncio.Semaphore(max(1, limit)). -/
def effectiveCap (env : BatchEnv) : Nat := (max 1 (resolvedLimit env)).toNat

/-- The phase of one run_one task: not yet holding the semaphore, holding
it with its API call in flight, or finished. -/
inductive TaskPhase where
  | pending
  | running
  | done
deriving DecidableEq

/-- Number of tasks in a given phase. -/
def countPhase (p : TaskPhase) : List TaskPhase → Nat
  | [] => 0
  | q :: t => (if q = p then 1 else 0) + countPhase p t

/-- Placeholder job used as a getD default; never selected under the
in-bounds hypotheses of the theorems. -/
def defaultJob : PromptJob := ⟨0, "", "", false⟩

/-- Placeholder result used as a getD default. -/
def defaultResult : PromptResult := ⟨0, "", "", none⟩

/-- The pre-allocated result slot for a job: its row and column identity,
empty text, absent error (the PromptResult dataclass defaults). -/
def initResult (j : PromptJob) : PromptResult :=
  ⟨j.row_index, j.column_name, "", none⟩

/-- The shared state of a batch run: per-task phases, available semaphore
permits, the completed counter, the list of (completed, total) pairs
passed to the progress callback so far, and the result slot array. -/
structure BatchState where
  phases : List TaskPhase
  sem : Nat
  completed : Nat
  trace : List (Nat × Nat)
  results : List PromptResult
deriving DecidableEq

/-- The slot update a finishing task performs: on success write the text,
on failure store the normalized error; the other fields are untouched. -/
def applyOutcome (r : PromptResult) : Except Exc String → PromptResult
  | .ok t => { r with text := t }
  | .error e => { r with error := some (handle_api_errors e) }

/-- The state of execute_batch_prompts after the set-up lines: every task
pending, all permits free, counter zero, no callback calls yet, and the
result list pre-populated from the jobs. -/
def initState (env : BatchEnv) : BatchState :=
  ⟨List.replicate env.jobs.length .pending, effectiveCap env, 0, [],
    env.jobs.map initResult⟩

/-- One cooperative scheduling step of the batch.  acquire: a pending
task obtains a free permit and issues its API call (async with semaphore
followed by the awaited call).  finish: a running task's call resolves;
in one uninterrupted synchronous stretch the task writes its slot (text
on success, normalized error on failure), releases its permit, increments
the shared counter and invokes the progress callback - run_one contains
no await between these actions, so they form one atomic step, and an
exception raised by the callback is caught and ignored. -/
inductive Step (env : BatchEnv) : BatchState → BatchState → Prop
  | acquire (s : BatchState) (i : Nat)
      (hp : s.phases.get? i = some .pending) (hsem : 0 < s.sem) :
      Step env s ⟨s.phases.set i .running, s.sem - 1, s.completed, s.trace, s.results⟩
  | finish (s : BatchState) (i : Nat)
      (hp : s.phases.get? i = some .running) :
      Step env s ⟨s.phases.set i .done, s.sem + 1, s.completed + 1,
        s.trace ++ [(s.completed + 1, env.jobs.length)],
        s.results.set i (applyOutcome (s.results.getD i defaultResult) (env.outcomes i))⟩

/-- States an execute_batch_prompts run can be in. -/
inductive Reachable (env : BatchEnv) : BatchState → Prop
  | init : Reachable env (initState env)
  | step {s s' : BatchState} : Reachable env s → Step env s s' → Reachable env s'

/-- All tasks have finished: the point at which asyncio.gather returns
and execute_batch_prompts hands the result list to its caller. -/
def AllDone (s : BatchState) : Prop := ∀ p ∈ s.phases, p = TaskPhase.done

instance (s : BatchState) : Decidable (AllDone s) :=
  inferInstanceAs (Decidable (∀ p ∈ s.phases, p = TaskPhase.done))

/-- The inductive invariant of the batch scheduler. -/
structure InvS (env : BatchEnv) (s : BatchState) : Prop where
  hPhasesLen : s.phases.length = env.jobs.length
  hResultsLen : s.results.length = env.jobs.length
  hSem : s.sem + countPhase .running s.phases = effectiveCap env
  hCompleted : s.completed = countPhase .done s.phases
  hTrace : s.trace = (List.range s.completed).map fun k => (k + 1, env.jobs.length)
  hDone : ∀ i, i < env.jobs.length → s.phases.getD i .pending = .done →
      s.results.getD i defaultResult =
        applyOutcome (initResult (env.jobs.getD i defaultJob)) (env.outcomes i)
  hNotDone : ∀ i, i < env.jobs.length → s.phases.getD i .pending ≠ .done →
      s.results.getD i defaultResult = initResult (env.jobs.getD i defaultJob)

/-- Environment with no jobs (witness data). -/
def sampleEnvEmpty : BatchEnv := ⟨[], fun _ => .ok "", none, none, fun _ => false⟩

/-- Witness job targeting row 0, column colA. -/
def sampleJobA : PromptJob := ⟨0, "colA", "pA", false⟩

/-- Witness job targeting row 1, column colB. -/
def sampleJobB : PromptJob := ⟨1, "colB", "pB", false⟩

/-- Witness exception. -/
def sampleExc : Exc := ⟨"APIConnectionError", "boom"⟩

/-- Two-job environment in which job 0 always fails and job 1 succeeds,
with an explicit concurrency cap of 2. -/
def sampleEnvFail : BatchEnv :=
  ⟨[sampleJobA, sampleJobB], fun i => if i = 0 then .error sampleExc else .ok "fine",
    some 2, none, fun _ => false⟩

/-- The normalized form of sampleExc. -/
def sampleErrRecord : ApiErrorRecord := ⟨"APIConnectionError", "boom", false, false, "boom"⟩

/-- The final state of running sampleEnvFail to completion. -/
def sampleStateFail : BatchState :=
  ⟨[.done, .done], 2, 2, [(1, 2), (2, 2)],
    [⟨0, "colA", "", some sampleErrRecord⟩, ⟨1, "colB", "fine", none⟩]⟩

/-- One-job environment with an explicit concurrency cap of 0 (clamped to
a one-permit semaphore by the code). -/
def sampleEnvClamp : BatchEnv :=
  ⟨[sampleJobA], fun _ => .ok "x", some 0, none, fun _ => false⟩

/-- The state of sampleEnvClamp after its single task acquires the gate:
one call in flight although the requested cap was 0. -/
def sampleClampState : BatchState :=
  ⟨[.running], 0, 0, [], [⟨0, "colA", "", none⟩]⟩

/-- Client oracle that raises on every call (witness data for the retry
accounting). -/
def alwaysFailOutcomes : Nat → Except Exc String := fun _ => .error sampleExc

/-- Client oracle that raises a distinct exception on every call: the
message of the i-th call's exception is i repetitions of x, so the
propagated exception identifies which attempt produced it. -/
def indexedFailOutcomes : Nat → Except Exc String :=
  fun i => .error ⟨"E", String.mk (List.replicate i 'x')⟩

/-- Witness template segments: literal text, one placeholder with
trailing whitespace padding, literal text. -/
def sampleSegs : List TemplateSeg :=
  [.lit "Hello ".toList, .ref [] "name".toList [' '], .lit "!".toList]

/-- Witness row values for the template renderer. -/
def sampleRow : List (String × Option String) := [("name", some "World")]

/-- The substitution regex _DOUBLE_BRACE_PATTERN matches at position i of
the character list l: from that position the text reads "{{", then
content admitting the backslash-s* ([a-zA-Z0-9_- ]+) backslash-s*
decomposition, then "}}".  A valid content contains no brace, so the
closing "}}" here is necessarily the first one after the opening "{{",
as the non-greedy regex requires.  This is the specification-side notion
of a match, stated by decomposition rather than through the scanner. -/
def MatchAt (l : List Char) (i : Nat) : Prop :=
  ∃ content rest,
    l.drop i = '{' :: '{' :: (content ++ '}' :: '}' :: rest) ∧
      validContent content = true

/-- Executable test for MatchAt, used to discharge no-match hypotheses on
concrete templates by evaluation. -/
def matchAtB (l : List Char) (i : Nat) : Bool :=
  match l.drop i with
  | '{' :: '{' :: r =>
      match findCloseBr r with
      | some q => validContent q.1.1
      | none => false
  | _ => false

/-- Witness template containing a malformed placeholder and stray braces
but no match of the substitution pattern. -/
def sampleNoMatchTemplate : String := "\x7b\x7b bad!name \x7d\x7d \x7bx\x7b\x7by"

/-- Witness row values binding the single-letter placeholder name a. -/
def sampleRow2 : List (String × Option String) := [("a", some "B")]

theorem listGet?_lt {α : Type} : ∀ (l : List α) (i : Nat) (a : α),
    l.get? i = some a → i < l.length := by
  intro l
  induction l with
  | nil => intro i a h; simp at h
  | cons c t ih =>
    intro i a h
    cases i with
    | zero => simp
    | succ j =>
      simp only [List.get?] at h
      have := ih j a h
      simp
      omega

theorem listGetD_of_get? {α : Type} : ∀ (l : List α) (i : Nat) (a d : α),
    l.get? i = some a → l.getD i d = a := by
  intro l
  induction l with
  | nil => intro i a d h; simp at h
  | cons c t ih =>
    intro i a d h
    cases i with
    | zero => simp at h; simp [h]
    | succ j =>
      simp only [List.get?] at h
      simpa using ih j a d h

theorem listGetD_set_self {α : Type} : ∀ (l : List α) (i : Nat) (b d : α),
    i < l.length → (l.set i b).getD i d = b := by
  intro l
  induction l with
  | nil => intro i b d h; simp at h
  | cons c t ih =>
    intro i b d h
    cases i with
    | zero => simp
    | succ j =>
      simp only [List.set, List.getD_cons_succ]
      exact ih j b d (by simp at h; omega)

theorem listGetD_set_ne {α : Type} : ∀ (l : List α) (i j : Nat) (b d : α),
    j ≠ i → (l.set i b).getD j d = l.getD j d := by
  intro l
  induction l with
  | nil => intro i j b d _; simp
  | cons c t ih =>
    intro i j b d hne
    cases i with
    | zero =>
      cases j with
      | zero => exact absurd rfl hne
      | succ k => simp
    | succ i' =>
      cases j with
      | zero => simp
      | succ k =>
        simp only [List.set, List.getD_cons_succ]
        exact ih i' k b d (by omega)

theorem listGetD_replicate {α : Type} : ∀ (n i : Nat) (a d : α),
    i < n → (List.replicate n a).getD i d = a := by
  intro n
  induction n with
  | zero => intro i a d h; omega
  | succ m ih =>
    intro i a d h
    cases i with
    | zero => simp [List.replicate]
    | succ j => simpa [List.replicate] using ih j a d (by omega)

theorem listGetD_map {α β : Type} (f : α → β) : ∀ (l : List α) (i : Nat) (d : β) (d' : α),
    i < l.length → (l.map f).getD i d = f (l.getD i d') := by
  intro l
  induction l with
  | nil => intro i d d' h; simp at h
  | cons c t ih =>
    intro i d d' h
    cases i with
    | zero => simp
    | succ j => simpa using ih j d d' (by simp at h; omega)

theorem listGetD_mem {α : Type} : ∀ (l : List α) (i : Nat) (d : α),
    i < l.length → l.getD i d ∈ l := by
  intro l
  induction l with
  | nil => intro i d h; simp at h
  | cons c t ih =>
    intro i d h
    cases i with
    | zero => simp
    | succ j =>
      simp only [List.getD_cons_succ]
      exact List.mem_cons_of_mem c (ih j d (by simp at h; omega))

theorem mem_get?_exists {α : Type} : ∀ (l : List α) (a : α),
    a ∈ l → ∃ i, l.get? i = some a := by
  intro l
  induction l with
  | nil => intro a h; simp at h
  | cons c t ih =>
    intro a h
    rcases List.mem_cons.mp h with h1 | h2
    · exact ⟨0, by simp [h1]⟩
    · obtain ⟨i, hi⟩ := ih a h2
      exact ⟨i + 1, by simpa using hi⟩

theorem countPhase_le_length (p : TaskPhase) : ∀ l : List TaskPhase,
    countPhase p l ≤ l.length := by
  intro l
  induction l with
  | nil => simp [countPhase]
  | cons q t ih =>
    simp only [countPhase, List.length_cons]
    split <;> omega

theorem countPhase_replicate (p q : TaskPhase) (n : Nat) :
    countPhase p (List.replicate n q) = if q = p then n else 0 := by
  induction n with
  | zero => simp [countPhase]
  | succ m ih =>
    simp only [List.replicate, countPhase, ih]
    split <;> omega

theorem countPhase_set : ∀ (l : List TaskPhase) (i : Nat) (a b c : TaskPhase),
    l.get? i = some a →
    countPhase c (l.set i b) + (if a = c then 1 else 0) =
      countPhase c l + (if b = c then 1 else 0) := by
  intro l
  induction l with
  | nil => intro i a b c h; simp at h
  | cons q t ih =>
    intro i a b c h
    cases i with
    | zero =>
      simp at h
      subst h
      simp only [List.set, countPhase]
      split <;> split <;> omega
    | succ j =>
      simp only [List.get?] at h
      simp only [List.set, countPhase]
      have := ih j a b c h
      omega

theorem countPhase_eq_length_iff (p : TaskPhase) : ∀ l : List TaskPhase,
    countPhase p l = l.length ↔ ∀ q ∈ l, q = p := by
  intro l
  induction l with
  | nil => simp [countPhase]
  | cons q t ih =>
    simp only [countPhase, List.length_cons, List.mem_cons]
    constructor
    · intro h
      have hle := countPhase_le_length p t
      have hq : q = p := by
        by_contra hne
        simp [hne] at h
        omega
      have ht : countPhase p t = t.length := by
        simp [hq] at h
        omega
      intro r hr
      rcases hr with h1 | h2
      · exact h1 ▸ hq
      · exact ih.mp ht r h2
    · intro h
      have hq : q = p := h q (Or.inl rfl)
      have ht : countPhase p t = t.length := ih.mpr fun r hr => h r (Or.inr hr)
      simp [hq, ht]
      omega

theorem countPhase_pos_exists (p : TaskPhase) : ∀ l : List TaskPhase,
    0 < countPhase p l → ∃ i, l.get? i = some p := by
  intro l
  induction l with
  | nil => intro h; simp [countPhase] at h
  | cons q t ih =>
    intro h
    by_cases hq : q = p
    · exact ⟨0, by simp [hq]⟩
    · simp only [countPhase, if_neg hq, Nat.zero_add] at h
      obtain ⟨i, hi⟩ := ih h
      exact ⟨i + 1, by simpa using hi⟩

theorem effectiveCap_pos (env : BatchEnv) : 1 ≤ effectiveCap env := by
  have h1 : (1 : Int) ≤ max 1 (resolvedLimit env) := le_max_left _ _
  have h2 := Int.toNat_le_toNat h1
  exact h2

theorem invS_init (env : BatchEnv) : InvS env (initState env) := by
  constructor
  · simp [initState]
  · simp [initState]
  · simp [initState, countPhase_replicate]
  · simp [initState, countPhase_replicate]
  · simp [initState]
  · intro i hi hdone
    simp only [initState] at hdone
    rw [listGetD_replicate env.jobs.length i _ _ hi] at hdone
    simp at hdone
  · intro i hi _
    simp only [initState]
    exact listGetD_map initResult env.jobs i _ defaultJob hi

theorem invS_step (env : BatchEnv) (s s' : BatchState)
    (hinv : InvS env s) (hstep : Step env s s') : InvS env s' := by
  obtain ⟨hPL, hRL, hSem, hC, hT, hD, hND⟩ := hinv
  cases hstep with
  | acquire i hp hsem =>
    have hilt : i < env.jobs.length := hPL ▸ listGet?_lt s.phases i _ hp
    have hcount := countPhase_set s.phases i .pending .running .running hp
    have hcd := countPhase_set s.phases i .pending .running .done hp
    simp at hcount hcd
    constructor
    · show (s.phases.set i .running).length = env.jobs.length
      simpa using hPL
    · exact hRL
    · show s.sem - 1 + countPhase .running (s.phases.set i .running) = effectiveCap env
      omega
    · show s.completed = countPhase .done (s.phases.set i .running)
      omega
    · exact hT
    · intro j hj hdone
      have hdone' : (s.phases.set i .running).getD j .pending = .done := hdone
      show s.results.getD j defaultResult =
        applyOutcome (initResult (env.jobs.getD j defaultJob)) (env.outcomes j)
      by_cases hji : j = i
      · subst hji
        rw [listGetD_set_self s.phases j .running .pending (hPL ▸ hj)] at hdone'
        simp at hdone'
      · rw [listGetD_set_ne s.phases i j .running .pending hji] at hdone'
        exact hD j hj hdone'
    · intro j hj hndone
      have hndone' : (s.phases.set i .running).getD j .pending ≠ .done := hndone
      show s.results.getD j defaultResult = initResult (env.jobs.getD j defaultJob)
      by_cases hji : j = i
      · subst hji
        have hpj : s.phases.getD j .pending = .pending := listGetD_of_get? _ _ _ _ hp
        exact hND j hj (by rw [hpj]; simp)
      · rw [listGetD_set_ne s.phases i j .running .pending hji] at hndone'
        exact hND j hj hndone'
  | finish i hp =>
    have hilt : i < env.jobs.length := hPL ▸ listGet?_lt s.phases i _ hp
    have hrun := countPhase_set s.phases i .running .done .running hp
    have hdn := countPhase_set s.phases i .running .done .done hp
    simp at hrun hdn
    constructor
    · show (s.phases.set i .done).length = env.jobs.length
      simpa using hPL
    · show (s.results.set i _).length = env.jobs.length
      simpa using hRL
    · show s.sem + 1 + countPhase .running (s.phases.set i .done) = effectiveCap env
      omega
    · show s.completed + 1 = countPhase .done (s.phases.set i .done)
      omega
    · show s.trace ++ [(s.completed + 1, env.jobs.length)] =
        (List.range (s.completed + 1)).map fun k => (k + 1, env.jobs.length)
      rw [List.range_succ, List.map_append, ← hT]
      simp
    · intro j hj hdone
      have hdone' : (s.phases.set i .done).getD j .pending = .done := hdone
      show (s.results.set i
          (applyOutcome (s.results.getD i defaultResult) (env.outcomes i))).getD j defaultResult =
        applyOutcome (initResult (env.jobs.getD j defaultJob)) (env.outcomes j)
      by_cases hji : j = i
      · subst hji
        rw [listGetD_set_self s.results j _ defaultResult (hRL ▸ hj)]
        have hpj : s.phases.getD j .pending = .running := listGetD_of_get? _ _ _ _ hp
        rw [hND j hj (by rw [hpj]; simp)]
      · rw [listGetD_set_ne s.results i j _ defaultResult hji]
        rw [listGetD_set_ne s.phases i j .done .pending hji] at hdone'
        exact hD j hj hdone'
    · intro j hj hndone
      have hndone' : (s.phases.set i .done).getD j .pending ≠ .done := hndone
      show (s.results.set i
          (applyOutcome (s.results.getD i defaultResult) (env.outcomes i))).getD j defaultResult =
        initResult (env.jobs.getD j defaultJob)
      by_cases hji : j = i
      · subst hji
        rw [listGetD_set_self s.phases j .done .pending (hPL ▸ hj)] at hndone'
        simp at hndone'
      · rw [listGetD_set_ne s.phases i j .done .pending hji] at hndone'
        rw [listGetD_set_ne s.results i j _ defaultResult hji]
        exact hND j hj hndone'

theorem invS_reachable (env : BatchEnv) (s : BatchState)
    (hr : Reachable env s) : InvS env s := by
  induction hr with
  | init => exact invS_init env
  | step hr hs ih => exact invS_step env _ _ ih hs

theorem step_exists_of_not_done (env : BatchEnv) (s : BatchState)
    (hinv : InvS env s) (hnd : ¬ AllDone s) : ∃ s', Step env s s' := by
  unfold AllDone at hnd
  push_neg at hnd
  obtain ⟨p, hmem, hne⟩ := hnd
  obtain ⟨i, hi⟩ := mem_get?_exists s.phases p hmem
  cases p with
  | done => exact absurd rfl hne
  | running => exact ⟨_, Step.finish s i hi⟩
  | pending =>
    by_cases hpos : 0 < countPhase .running s.phases
    · obtain ⟨j, hj⟩ := countPhase_pos_exists .running s.phases hpos
      exact ⟨_, Step.finish s j hj⟩
    · have hcap := effectiveCap_pos env
      have hsem : 0 < s.sem := by
        have := hinv.hSem
        omega
      exact ⟨_, Step.acquire s i hi hsem⟩

theorem step_congr (env1 env2 : BatchEnv)
    (hj : env1.jobs = env2.jobs) (ho : env1.outcomes = env2.outcomes)
    {s s' : BatchState} (h : Step env1 s s') : Step env2 s s' := by
  cases h with
  | acquire i hp hsem => exact Step.acquire s i hp hsem
  | finish i hp =>
    rw [hj, ho]
    exact Step.finish s i hp

theorem reachable_congr (env1 env2 : BatchEnv)
    (hj : env1.jobs = env2.jobs) (ho : env1.outcomes = env2.outcomes)
    (hl : env1.limitArg = env2.limitArg) (he : env1.envVar = env2.envVar)
    (s : BatchState) (h : Reachable env1 s) : Reachable env2 s := by
  induction h with
  | init =>
    have hinit : initState env1 = initState env2 := by
      unfold initState effectiveCap resolvedLimit
      rw [hj, hl, he]
    rw [hinit]
    exact Reachable.init
  | step hr hs ih => exact Reachable.step ih (step_congr env1 env2 hj ho hs)

theorem sampleStateFail_reachable : Reachable sampleEnvFail sampleStateFail := by
  have h0 := @Reachable.init sampleEnvFail
  have h1 := Reachable.step h0 (Step.acquire _ 0 (by decide) (by decide))
  have h2 := Reachable.step h1 (Step.acquire _ 1 (by decide) (by decide))
  have h3 := Reachable.step h2 (Step.finish _ 0 (by decide))
  have h4 := Reachable.step h3 (Step.finish _ 1 (by decide))
  exact h4

theorem sampleClampState_reachable : Reachable sampleEnvClamp sampleClampState := by
  have h0 := @Reachable.init sampleEnvClamp
  exact Reachable.step h0 (Step.acquire _ 0 (by decide) (by decide))

/-- C1: at the point where execute_batch_prompts returns (every task
finished), the result list has exactly as many entries as the job list,
and the entry at each position k carries the row_index and column_name of
the job at position k; this also covers the empty job list, whose run is
complete at its initial state. -/
theorem c1_batch_result_order (env : BatchEnv) (s : BatchState)
    (hr : Reachable env s) (hdone : AllDone s) :
    s.results.length = env.jobs.length ∧
    ∀ i, i < env.jobs.length →
      (s.results.getD i defaultResult).row_index = (env.jobs.getD i defaultJob).row_index ∧
      (s.results.getD i defaultResult).column_name = (env.jobs.getD i defaultJob).column_name := by
  have hinv := invS_reachable env s hr
  refine ⟨hinv.hResultsLen, ?_⟩
  intro i hi
  have hph : s.phases.getD i .pending = .done :=
    hdone _ (listGetD_mem s.phases i .pending (hinv.hPhasesLen ▸ hi))
  rw [hinv.hDone i hi hph]
  cases env.outcomes i <;> simp [applyOutcome, initResult]

theorem c1_batch_result_order_witness :
    Reachable sampleEnvEmpty (initState sampleEnvEmpty) ∧
    AllDone (initState sampleEnvEmpty) ∧
    ((initState sampleEnvEmpty).results.length = sampleEnvEmpty.jobs.length ∧
      ∀ i, i < sampleEnvEmpty.jobs.length →
        ((initState sampleEnvEmpty).results.getD i defaultResult).row_index =
          (sampleEnvEmpty.jobs.getD i defaultJob).row_index ∧
        ((initState sampleEnvEmpty).results.getD i defaultResult).column_name =
          (sampleEnvEmpty.jobs.getD i defaultJob).column_name) :=
  ⟨Reachable.init, by decide,
    c1_batch_result_order sampleEnvEmpty (initState sampleEnvEmpty) Reachable.init (by decide)⟩

/-- C2: when the underlying call of the job at position k fails (after its
retries), the batch still completes: the finished state's result at k
stores the normalized structured error with empty text, while every other
job with a successful outcome keeps its text and has no error; no
exception escapes to the caller (the step relation is total up to
completion, see the progress theorem). -/
theorem c2_failure_containment (env : BatchEnv) (s : BatchState) (k : Nat) (e : Exc)
    (hr : Reachable env s) (hdone : AllDone s)
    (hk : k < env.jobs.length) (hfail : env.outcomes k = .error e) :
    (s.results.getD k defaultResult).error = some (handle_api_errors e) ∧
    (s.results.getD k defaultResult).text = "" ∧
    ∀ j t, j < env.jobs.length → j ≠ k → env.outcomes j = .ok t →
      (s.results.getD j defaultResult).text = t ∧
      (s.results.getD j defaultResult).error = none := by
  have hinv := invS_reachable env s hr
  have hslot : ∀ j, j < env.jobs.length →
      s.results.getD j defaultResult =
        applyOutcome (initResult (env.jobs.getD j defaultJob)) (env.outcomes j) := by
    intro j hj
    exact hinv.hDone j hj
      (hdone _ (listGetD_mem s.phases j .pending (hinv.hPhasesLen ▸ hj)))
  refine ⟨?_, ?_, ?_⟩
  · rw [hslot k hk, hfail]
    simp [applyOutcome]
  · rw [hslot k hk, hfail]
    simp [applyOutcome, initResult]
  · intro j t hj _ hok
    rw [hslot j hj, hok]
    simp [applyOutcome, initResult]

theorem c2_failure_containment_witness :
    Reachable sampleEnvFail sampleStateFail ∧
    AllDone sampleStateFail ∧
    0 < sampleEnvFail.jobs.length ∧
    sampleEnvFail.outcomes 0 = .error sampleExc ∧
    ((sampleStateFail.results.getD 0 defaultResult).error = some (handle_api_errors sampleExc) ∧
      (sampleStateFail.results.getD 0 defaultResult).text = "" ∧
      ∀ j t, j < sampleEnvFail.jobs.length → j ≠ 0 → sampleEnvFail.outcomes j = .ok t →
        (sampleStateFail.results.getD j defaultResult).text = t ∧
        (sampleStateFail.results.getD j defaultResult).error = none) :=
  ⟨sampleStateFail_reachable, by decide, by decide, rfl,
    c2_failure_containment sampleEnvFail sampleStateFail 0 sampleExc
      sampleStateFail_reachable (by decide) (by decide) rfl⟩

/-- C3 (amended): in every reachable state of a batch run the number of
in-flight underlying API calls never exceeds the admission-gate size,
which is max(1, limit) where limit is the explicit argument if given,
else the environment-configured value, else 5.  The unclamped bound of
the original claim fails for caps below 1, see the counterexample. -/
theorem c3_inflight_bound (env : BatchEnv) (s : BatchState) (hr : Reachable env s) :
    countPhase .running s.phases ≤ effectiveCap env ∧
    (∀ v, env.limitArg = some v → effectiveCap env = (max 1 v).toNat) ∧
    (env.limitArg = none → ∀ v, env.envVar = some v → effectiveCap env = (max 1 v).toNat) ∧
    (env.limitArg = none → env.envVar = none → effectiveCap env = 5) := by
  have hinv := invS_reachable env s hr
  refine ⟨?_, ?_, ?_, ?_⟩
  · have := hinv.hSem
    omega
  · intro v hv
    simp [effectiveCap, resolvedLimit, hv]
  · intro h1 v hv
    simp [effectiveCap, resolvedLimit, h1, hv]
  · intro h1 h2
    simp [effectiveCap, resolvedLimit, h1, h2]

theorem c3_inflight_bound_witness :
    Reachable sampleEnvFail (initState sampleEnvFail) ∧
    (countPhase .running (initState sampleEnvFail).phases ≤ effectiveCap sampleEnvFail ∧
      (∀ v, sampleEnvFail.limitArg = some v → effectiveCap sampleEnvFail = (max 1 v).toNat) ∧
      (sampleEnvFail.limitArg = none → ∀ v, sampleEnvFail.envVar = some v →
        effectiveCap sampleEnvFail = (max 1 v).toNat) ∧
      (sampleEnvFail.limitArg = none → sampleEnvFail.envVar = none →
        effectiveCap sampleEnvFail = 5)) :=
  ⟨Reachable.init, c3_inflight_bound sampleEnvFail (initState sampleEnvFail) Reachable.init⟩

/-- C3 counterexample: with an explicit concurrency cap of 0, the batch
reaches a state with one call in flight, exceeding the requested cap, so
the unclamped bound of the claim as stated is false. -/
theorem c3_counterexample_cap_zero :
    sampleEnvClamp.limitArg = some 0 ∧
    Reachable sampleEnvClamp sampleClampState ∧
    countPhase .running sampleClampState.phases = 1 :=
  ⟨rfl, sampleClampState_reachable, by decide⟩

/-- C8: in every reachable state the progress-callback trace is exactly
(1, total), (2, total), ..., (completed, total): its completed components
are non-decreasing, the callback has fired exactly once per finished task
(success or failure alike), completed reaches total exactly when all jobs
have finished, and the reachable states are independent of whether the
callback raises (run_one swallows such exceptions). -/
theorem c8_progress_monotone (env : BatchEnv) (s : BatchState) (hr : Reachable env s) :
    s.trace = (List.range s.completed).map (fun k => (k + 1, env.jobs.length)) ∧
    List.Pairwise (fun a b : Nat × Nat => a.1 ≤ b.1) s.trace ∧
    s.trace.length = countPhase .done s.phases ∧
    (s.completed = env.jobs.length ↔ AllDone s) ∧
    (∀ f, Reachable ⟨env.jobs, env.outcomes, env.limitArg, env.envVar, f⟩ s ↔ Reachable env s) := by
  have hinv := invS_reachable env s hr
  have htr := hinv.hTrace
  refine ⟨htr, ?_, ?_, ?_, ?_⟩
  · rw [htr]
    exact (List.pairwise_lt_range s.completed).map _ (fun a b h => by simp; omega)
  · rw [htr]
    simp [hinv.hCompleted]
  · constructor
    · intro h
      have hcnt : countPhase .done s.phases = s.phases.length := by
        rw [← hinv.hCompleted, h, hinv.hPhasesLen]
      exact (countPhase_eq_length_iff .done s.phases).mp hcnt
    · intro h
      rw [hinv.hCompleted, ← hinv.hPhasesLen]
      exact (countPhase_eq_length_iff .done s.phases).mpr h
  · intro f
    constructor
    · intro h
      exact reachable_congr
        ⟨env.jobs, env.outcomes, env.limitArg, env.envVar, f⟩ env rfl rfl rfl rfl s h
    · intro h
      exact reachable_congr
        env ⟨env.jobs, env.outcomes, env.limitArg, env.envVar, f⟩ rfl rfl rfl rfl s h

theorem c8_progress_monotone_witness :
    Reachable sampleEnvFail sampleStateFail ∧
    (sampleStateFail.trace =
        (List.range sampleStateFail.completed).map
          (fun k => (k + 1, sampleEnvFail.jobs.length)) ∧
      List.Pairwise (fun a b : Nat × Nat => a.1 ≤ b.1) sampleStateFail.trace ∧
      sampleStateFail.trace.length = countPhase .done sampleStateFail.phases ∧
      (sampleStateFail.completed = sampleEnvFail.jobs.length ↔ AllDone sampleStateFail) ∧
      (∀ f, Reachable ⟨sampleEnvFail.jobs, sampleEnvFail.outcomes, sampleEnvFail.limitArg,
          sampleEnvFail.envVar, f⟩ sampleStateFail ↔ Reachable sampleEnvFail sampleStateFail)) :=
  ⟨sampleStateFail_reachable,
    c8_progress_monotone sampleEnvFail sampleStateFail sampleStateFail_reachable⟩

/-- C10: when the resolved concurrency limit is below 1 (explicit argument
or environment value), the admission gate is clamped to a single permit,
and every reachable unfinished state can still take a step, so the batch
never deadlocks on a zero-permit gate and runs every job to completion. -/
theorem c10_cap_clamp_progress (env : BatchEnv) (hlow : resolvedLimit env < 1) :
    effectiveCap env = 1 ∧
    ∀ s, Reachable env s → ¬ AllDone s → ∃ s', Step env s s' := by
  constructor
  · unfold effectiveCap
    rw [max_eq_left (by omega : resolvedLimit env ≤ 1)]
    rfl
  · intro s hr hnd
    exact step_exists_of_not_done env s (invS_reachable env s hr) hnd

theorem c10_cap_clamp_progress_witness :
    resolvedLimit sampleEnvClamp < 1 ∧
    (effectiveCap sampleEnvClamp = 1 ∧
      ∀ s, Reachable sampleEnvClamp s → ¬ AllDone s → ∃ s', Step sampleEnvClamp s s') :=
  ⟨by decide, c10_cap_clamp_progress sampleEnvClamp (by decide)⟩

theorem isPrefixOf_iff_append : ∀ (p l : List Char),
    p.isPrefixOf l = true ↔ ∃ t, l = p ++ t := by
  intro p
  induction p with
  | nil => intro l; simp [List.isPrefixOf]
  | cons a as ih =>
    intro l
    cases l with
    | nil => simp [List.isPrefixOf]
    | cons b bs =>
      simp only [List.isPrefixOf, Bool.and_eq_true, beq_iff_eq, ih, List.cons_append]
      constructor
      · rintro ⟨hab, t, ht⟩
        exact ⟨t, by rw [hab, ht]⟩
      · rintro ⟨t, ht⟩
        injection ht with h1 h2
        exact ⟨h1.symm, t, h2⟩

theorem containsSub_iff_parts : ∀ (p l : List Char),
    containsSub p l = true ↔ ∃ a b, l = a ++ p ++ b := by
  intro p l
  induction l with
  | nil =>
    simp only [containsSub, List.isEmpty_iff]
    constructor
    · intro h
      exact ⟨[], [], by simp [h]⟩
    · rintro ⟨a, b, hab⟩
      rcases List.append_eq_nil.mp (List.append_eq_nil.mp hab.symm).1 with ⟨_, h2⟩
      exact h2
  | cons c r ih =>
    simp only [containsSub, Bool.or_eq_true, ih, isPrefixOf_iff_append]
    constructor
    · rintro (⟨t, ht⟩ | ⟨a, b, hab⟩)
      · exact ⟨[], t, by simp [ht]⟩
      · exact ⟨c :: a, b, by simp [hab]⟩
    · rintro ⟨a, b, hab⟩
      cases a with
      | nil =>
        exact Or.inl ⟨b, by simpa using hab⟩
      | cons a0 a' =>
        simp only [List.cons_append, List.append_assoc] at hab
        injection hab with h1 h2
        exact Or.inr ⟨a', b, by simpa [List.append_assoc] using h2⟩

/-- C4 (divergence demonstration): with tenacity importable and a client
that raises on every call, _call_responses_api performs 12 underlying
calls, not at most 6 - six inside the tenacity-decorated inner function
and, because the resulting RetryError is caught by the broad except that
guards the tenacity path, six more in the manual fallback loop; the
exception of the 12th call (index 11) is the one that finally propagates.
Only without tenacity does the call stop after 6 attempts. -/
theorem c4_retry_attempt_count :
    (call_responses_api true alwaysFailOutcomes).2 = 12 ∧
    6 < (call_responses_api true alwaysFailOutcomes).2 ∧
    (call_responses_api true alwaysFailOutcomes).1 = Except.error sampleExc ∧
    (call_responses_api true indexedFailOutcomes).1 =
      Except.error ⟨"E", String.mk (List.replicate 11 'x')⟩ ∧
    (call_responses_api false alwaysFailOutcomes).2 = 6 ∧
    (call_responses_api false indexedFailOutcomes).1 =
      Except.error ⟨"E", String.mk (List.replicate 5 'x')⟩ :=
  ⟨rfl, by decide, rfl, rfl, rfl, rfl⟩

/-- C9: handle_api_errors copies the failure's type name into error_type
and its textual description into message and raw; is_rate_limit holds
exactly when the message contains "Rate" or the HTTP 429 marker, and
is_timeout exactly when the lower-cased message contains "timeout"; the
normalizer is a total function. -/
theorem c9_error_normalizer (e : Exc) :
    (handle_api_errors e).error_type = e.typeName ∧
    (handle_api_errors e).message = e.message ∧
    (handle_api_errors e).raw = e.message ∧
    ((handle_api_errors e).is_rate_limit = true ↔
      (∃ a b, e.message.toList = a ++ "Rate".toList ++ b) ∨
      (∃ a b, e.message.toList = a ++ "429".toList ++ b)) ∧
    ((handle_api_errors e).is_timeout = true ↔
      ∃ a b, toLowerList e.message.toList = a ++ "timeout".toList ++ b) := by
  refine ⟨rfl, rfl, rfl, ?_, ?_⟩
  · simp [handle_api_errors, Bool.or_eq_true, containsSub_iff_parts]
  · simp [handle_api_errors, containsSub_iff_parts]

theorem dropWhile_all_append (p : Char → Bool) : ∀ (w l : List Char),
    w.all p = true → List.dropWhile p (w ++ l) = List.dropWhile p l := by
  intro w
  induction w with
  | nil => simp
  | cons a w' ih =>
    intro l hall
    simp only [List.all_cons, Bool.and_eq_true] at hall
    simp [List.dropWhile_cons, hall.1, ih l hall.2]

theorem dropWhile_cons_of_head_false (p : Char → Bool) (c : Char) (l : List Char)
    (h : p c = false) : List.dropWhile p (c :: l) = c :: l := by
  simp [List.dropWhile_cons, h]

theorem dropWhile_head_false (p : Char → Bool) : ∀ (l : List Char) (c : Char) (t : List Char),
    List.dropWhile p l = c :: t → p c = false := by
  intro l
  induction l with
  | nil => intro c t h; simp at h
  | cons a r ih =>
    intro c t h
    rw [List.dropWhile_cons] at h
    by_cases hp : p a = true
    · rw [if_pos hp] at h
      exact ih c t h
    · rw [if_neg hp] at h
      injection h with h1 _
      subst h1
      simpa using hp

theorem dropWhile_idem (p : Char → Bool) (l : List Char) :
    List.dropWhile p (List.dropWhile p l) = List.dropWhile p l := by
  cases h : List.dropWhile p l with
  | nil => rfl
  | cons c t => exact dropWhile_cons_of_head_false p c t (dropWhile_head_false p l c t h)

theorem stripWs_dropWhile_self (l : List Char) :
    List.dropWhile isWsChar (stripWs l) = stripWs l := by
  cases hz : stripWs l with
  | nil => rfl
  | cons c t =>
    refine dropWhile_cons_of_head_false _ _ _ ?_
    have hdec := List.takeWhile_append_dropWhile isWsChar (List.dropWhile isWsChar l).reverse
    have hD : List.dropWhile isWsChar l =
        stripWs l ++ (List.takeWhile isWsChar (List.dropWhile isWsChar l).reverse).reverse := by
      calc List.dropWhile isWsChar l
          = ((List.dropWhile isWsChar l).reverse).reverse := (List.reverse_reverse _).symm
        _ = (List.takeWhile isWsChar (List.dropWhile isWsChar l).reverse ++
              List.dropWhile isWsChar (List.dropWhile isWsChar l).reverse).reverse := by
            rw [hdec]
        _ = (List.dropWhile isWsChar (List.dropWhile isWsChar l).reverse).reverse ++
              (List.takeWhile isWsChar (List.dropWhile isWsChar l).reverse).reverse := by
            rw [List.reverse_append]
        _ = stripWs l ++ (List.takeWhile isWsChar (List.dropWhile isWsChar l).reverse).reverse :=
            rfl
    rw [hz, List.cons_append] at hD
    exact dropWhile_head_false isWsChar l c _ hD

theorem stripWs_idem (l : List Char) : stripWs (stripWs l) = stripWs l := by
  have h2 : (stripWs l).reverse =
      List.dropWhile isWsChar (List.dropWhile isWsChar l).reverse := by
    rw [stripWs, List.reverse_reverse]
  calc stripWs (stripWs l)
      = ((List.dropWhile isWsChar (stripWs l)).reverse.dropWhile isWsChar).reverse := rfl
    _ = ((stripWs l).reverse.dropWhile isWsChar).reverse := by rw [stripWs_dropWhile_self]
    _ = ((List.dropWhile isWsChar
          (List.dropWhile isWsChar l).reverse).dropWhile isWsChar).reverse := by rw [h2]
    _ = (List.dropWhile isWsChar (List.dropWhile isWsChar l).reverse).reverse := by
        rw [dropWhile_idem]
    _ = stripWs l := by rw [← h2, List.reverse_reverse]

theorem parseOneTag_stripped (text tag : String) :
    stripWs (parseOneTag text tag).toList = (parseOneTag text tag).toList := by
  unfold parseOneTag
  split
  · rfl
  · split
    · rfl
    · exact stripWs_idem _

theorem string_toList_eq_nil (s : String) : s.toList = [] ↔ s = "" := by
  cases s with
  | mk data =>
    constructor
    · intro h
      simp [String.toList] at h
      subst h
      rfl
    · intro h
      have h2 : (String.mk data).data = ("" : String).data := by rw [h]
      simpa using h2

theorem parseOneTag_eq_empty_of_no_pair (text tag : String)
    (h : hasTagPair text tag = false) : parseOneTag text tag = "" := by
  unfold hasTagPair at h
  unfold parseOneTag
  split
  · rfl
  · rename_i pre rest heq
    rw [heq] at h
    change (splitFirstCI (closeTagChars tag) rest).isSome = false at h
    split
    · rfl
    · rename_i inner after heq2
      rw [heq2] at h
      simp at h

theorem cellHasNonEmptyTag_iff (tag : String) (cell : Option String) :
    cellHasNonEmptyTag tag cell = true ↔
      cellToStr cell ≠ "" ∧ parseOneTag (cellToStr cell) tag ≠ "" := by
  show (!(cellToStr cell).isEmpty &&
      !(stripWs (parseOneTag (cellToStr cell) tag).toList).isEmpty) = true ↔ _
  rw [parseOneTag_stripped]
  simp only [Bool.and_eq_true]
  constructor
  · rintro ⟨h1, h2⟩
    constructor
    · intro hc
      rw [hc] at h1
      exact absurd h1 (by decide)
    · intro hc
      rw [hc] at h2
      exact absurd h2 (by decide)
  · rintro ⟨h1, h2⟩
    constructor
    · cases hb : (cellToStr cell).isEmpty with
      | true => exact absurd ((String.isEmpty_iff _).mp hb) h1
      | false => simp
    · cases hb : (parseOneTag (cellToStr cell) tag).toList.isEmpty with
      | true =>
        rw [List.isEmpty_iff] at hb
        exact absurd ((string_toList_eq_nil _).mp hb) h2
      | false => simp

/-- C5: extract_tags_from_dataframe keeps the dataframe shape and, per
column: the column is classified tag-bearing exactly when some cell of it
is non-empty and contains a non-empty match for the tag; a tag-bearing
column has every cell replaced by its extracted content (the empty string
where the tag is absent in that cell, including empty and missing cells);
a column in which no cell even has an open/close pair for the tag is
returned completely unchanged. -/
theorem c5_column_extraction (df : List (List (Option String))) (tag : String)
    (i : Nat) (hi : i < df.length) :
    (extract_tags_from_dataframe df tag).length = df.length ∧
    (colTagBearing tag (df.getD i []) = true ↔
      ∃ cell ∈ df.getD i [],
        cellToStr cell ≠ "" ∧ parseOneTag (cellToStr cell) tag ≠ "") ∧
    (colTagBearing tag (df.getD i []) = true →
      (extract_tags_from_dataframe df tag).getD i [] =
        (df.getD i []).map (replaceCell tag)) ∧
    ((∀ cell ∈ df.getD i [], hasTagPair (cellToStr cell) tag = false) →
      (extract_tags_from_dataframe df tag).getD i [] = df.getD i []) := by
  refine ⟨by simp [extract_tags_from_dataframe], ?_, ?_, ?_⟩
  · rw [colTagBearing, List.any_eq_true]
    constructor
    · rintro ⟨cell, hmem, hc⟩
      exact ⟨cell, hmem, (cellHasNonEmptyTag_iff tag cell).mp hc⟩
    · rintro ⟨cell, hmem, hc⟩
      exact ⟨cell, hmem, (cellHasNonEmptyTag_iff tag cell).mpr hc⟩
  · intro hbear
    rw [extract_tags_from_dataframe, listGetD_map (processColumn tag) df i [] [] hi,
      processColumn, if_pos hbear]
  · intro hnone
    have hbear : colTagBearing tag (df.getD i []) = false := by
      rw [colTagBearing]
      rw [List.any_eq_false]
      intro cell hmem
      intro hc
      obtain ⟨h1, h2⟩ := (cellHasNonEmptyTag_iff tag cell).mp hc
      exact h2 (parseOneTag_eq_empty_of_no_pair _ _ (hnone cell hmem))
    rw [extract_tags_from_dataframe, listGetD_map (processColumn tag) df i [] [] hi,
      processColumn, if_neg (by rw [hbear]; simp)]

theorem c5_column_extraction_witness :
    0 < ([[some "<x>v</x>", some "plain"], [some "no tags", none]] :
        List (List (Option String))).length ∧
    (let df : List (List (Option String)) :=
      [[some "<x>v</x>", some "plain"], [some "no tags", none]]
    (extract_tags_from_dataframe df "x").length = df.length ∧
    (colTagBearing "x" (df.getD 0 []) = true ↔
      ∃ cell ∈ df.getD 0 [],
        cellToStr cell ≠ "" ∧ parseOneTag (cellToStr cell) "x" ≠ "") ∧
    (colTagBearing "x" (df.getD 0 []) = true →
      (extract_tags_from_dataframe df "x").getD 0 [] =
        (df.getD 0 []).map (replaceCell "x")) ∧
    ((∀ cell ∈ df.getD 0 [], hasTagPair (cellToStr cell) "x" = false) →
      (extract_tags_from_dataframe df "x").getD 0 [] = df.getD 0 [])) :=
  ⟨by decide,
    c5_column_extraction [[some "<x>v</x>", some "plain"], [some "no tags", none]] "x" 0
      (by decide)⟩

theorem startsWithCI_self_append (p rest : List Char) : startsWithCI p (p ++ rest) = true := by
  simp [startsWithCI, lowerEq, List.take_left]

theorem splitFirstCI_self_append (p rest : List Char) (hp : p ≠ []) :
    splitFirstCI p (p ++ rest) = some ([], rest) := by
  cases p with
  | nil => exact absurd rfl hp
  | cons c t =>
    have h := startsWithCI_self_append (c :: t) rest
    rw [List.cons_append] at h
    rw [List.cons_append]
    simp only [splitFirstCI, h, if_true]
    rw [← List.cons_append, List.drop_left]

theorem containsCI_cons (p : List Char) (c : Char) (r : List Char) :
    containsCI p (c :: r) = (startsWithCI p (c :: r) || containsCI p r) := by
  unfold containsCI
  simp only [splitFirstCI]
  split
  · rename_i hcond
    simp [hcond]
  · rename_i hcond
    simp only [Bool.not_eq_true] at hcond
    simp [hcond, Option.isSome_map]

theorem startsWithCI_append_left (p l rest : List Char) (h : p.length ≤ l.length) :
    startsWithCI p (l ++ rest) = startsWithCI p l := by
  unfold startsWithCI
  rw [List.take_append_eq_append_take, Nat.sub_eq_zero_of_le h, List.take_zero,
    List.append_nil]

theorem close_answer_no_border : ∀ k, k < 9 → 1 ≤ k →
    ¬ (List.map Char.toLower ((closeTagChars "answer").drop k) =
        List.map Char.toLower ((closeTagChars "answer").take (9 - k))) := by decide

theorem close_append_split : ∀ b : List Char,
    containsCI (closeTagChars "answer") b = false →
    splitFirstCI (closeTagChars "answer") (b ++ closeTagChars "answer") = some (b, []) := by
  intro b
  induction b with
  | nil =>
    intro _
    decide
  | cons c b' ih =>
    intro h
    rw [containsCI_cons, Bool.or_eq_false_iff] at h
    obtain ⟨h1, h2⟩ := h
    have hplen : (closeTagChars "answer").length = 9 := by decide
    have hstart : startsWithCI (closeTagChars "answer")
        (c :: (b' ++ closeTagChars "answer")) = false := by
      rcases Nat.lt_or_ge (c :: b').length 9 with hk | hk
      · rw [Bool.eq_false_iff]
        intro htrue
        rw [show c :: (b' ++ closeTagChars "answer") =
          (c :: b') ++ closeTagChars "answer" from rfl] at htrue
        unfold startsWithCI lowerEq at htrue
        have heq := of_decide_eq_true htrue
        rw [hplen, List.take_append_eq_append_take,
          List.take_of_length_le (by omega)] at heq
        unfold toLowerList at heq
        rw [List.map_append] at heq
        have hsplit : List.map Char.toLower (closeTagChars "answer") =
            List.map Char.toLower ((closeTagChars "answer").take (c :: b').length) ++
              List.map Char.toLower ((closeTagChars "answer").drop (c :: b').length) := by
          rw [← List.map_append, List.take_append_drop]
        rw [hsplit] at heq
        have hlen : (List.map Char.toLower
            ((closeTagChars "answer").take (c :: b').length)).length =
            (List.map Char.toLower (c :: b')).length := by
          simp only [List.length_map, List.length_take, hplen, List.length_cons]
          simp only [List.length_cons] at hk
          omega
        have hparts := List.append_inj heq hlen
        exact close_answer_no_border (c :: b').length hk (by simp) hparts.2
      · rw [show c :: (b' ++ closeTagChars "answer") =
          (c :: b') ++ closeTagChars "answer" from rfl]
        rw [startsWithCI_append_left _ _ _ (by rw [hplen]; exact hk)]
        exact h1
    rw [List.cons_append]
    simp only [splitFirstCI, hstart]
    simp only [Bool.false_eq_true, if_false]
    rw [ih h2]
    rfl

theorem parseOneTag_wrap (body : String)
    (h1 : containsCI (closeTagChars "answer") body.toList = false) :
    parseOneTag ("<answer>" ++ body ++ "</answer>") "answer" =
      String.mk (stripWs body.toList) := by
  have htl : ("<answer>" ++ body ++ "</answer>").toList =
      openTagChars "answer" ++ (body.toList ++ closeTagChars "answer") := by
    have hopen : ("<answer>" : String).toList = openTagChars "answer" := by decide
    have hclose : ("</answer>" : String).toList = closeTagChars "answer" := by decide
    rw [← hopen, ← hclose]
    simp [String.toList, String.data_append]
  unfold parseOneTag
  rw [htl, splitFirstCI_self_append _ _ (by decide)]
  show (match splitFirstCI (closeTagChars "answer") (body.toList ++ closeTagChars "answer") with
    | none => ""
    | some (inner, _) => String.mk (stripWs inner)) = String.mk (stripWs body.toList)
  rw [close_append_split body.toList h1]

/-- C6 (amended): for a body with no case-insensitive occurrence of the
closing tag, parsing the wrapped text returns the body stripped of
surrounding whitespace under key answer; and for any text in which a
requested tag has no open/close pair, parse_xml_tags returns the empty
string for that tag (the function is total, so it never raises).  The
original claim's case-sensitive reading of "no occurrence" fails because
matching uses re.IGNORECASE, see the counterexample. -/
theorem c6_parse_round_trip (body text tag : String)
    (h1 : containsCI (closeTagChars "answer") body.toList = false)
    (h2 : hasTagPair text tag = false) :
    (parse_xml_tags ("<answer>" ++ body ++ "</answer>") ["answer"]).lookup "answer" =
      some (String.mk (stripWs body.toList)) ∧
    (parse_xml_tags text [tag]).lookup tag = some "" := by
  constructor
  · simp only [parse_xml_tags, List.map_cons, List.map_nil, List.lookup,
      beq_self_eq_true]
    rw [parseOneTag_wrap body h1]
  · simp only [parse_xml_tags, List.map_cons, List.map_nil, List.lookup,
      beq_self_eq_true]
    rw [parseOneTag_eq_empty_of_no_pair text tag h2]

theorem c6_parse_round_trip_witness :
    containsCI (closeTagChars "answer") ("  The answer is 42. " : String).toList = false ∧
    hasTagPair "no tags at all" "answer" = false ∧
    ((parse_xml_tags ("<answer>" ++ "  The answer is 42. " ++ "</answer>")
        ["answer"]).lookup "answer" =
      some (String.mk (stripWs ("  The answer is 42. " : String).toList)) ∧
    (parse_xml_tags "no tags at all" ["answer"]).lookup "answer" = some "") :=
  ⟨by decide, by decide,
    c6_parse_round_trip "  The answer is 42. " "no tags at all" "answer"
      (by decide) (by decide)⟩

/-- C6 counterexample: the body consisting of the text close-tag written
in upper case contains no literal occurrence of the lower-case closing
tag, yet wrapping it and parsing does not return the stripped body: the
IGNORECASE close-tag match fires on the upper-case occurrence, so the
extracted content is empty instead. -/
theorem c6_counterexample_case :
    containsSub (closeTagChars "answer") ("</ANSWER>" : String).toList = false ∧
    (parse_xml_tags ("<answer>" ++ "</ANSWER>" ++ "</answer>") ["answer"]).lookup "answer" =
      some "" ∧
    String.mk (stripWs ("</ANSWER>" : String).toList) = "</ANSWER>" ∧
    ("" : String) ≠ "</ANSWER>" :=
  ⟨by decide, by decide, by decide, by decide⟩

theorem renderList_nil (m : List (String × Option String)) : renderList m [] = [] := by
  rw [renderList]

theorem renderList_cons_ne (m : List (String × Option String)) (c : Char) (l : List Char)
    (hc : c ≠ '{') : renderList m (c :: l) = c :: renderList m l := by
  rw [renderList.eq_def]
  split
  · rename_i heq
    simp at heq
  · rename_i r heq
    injection heq with hc1 _
    exact absurd hc1 hc
  · rename_i c2 r heq
    injection heq with hc1 hr
    subst hc1
    subst hr
    rfl

theorem findCloseBr_append : ∀ (content t : List Char), (∀ c ∈ content, c ≠ '}') →
    ∃ h, findCloseBr (content ++ '}' :: '}' :: t) = some ⟨(content, t), h⟩ := by
  intro content
  induction content with
  | nil =>
    intro t _
    exact ⟨by simp, by simp [findCloseBr]⟩
  | cons a content' ih =>
    intro t hne
    have ha : a ≠ '}' := hne a (List.mem_cons_self a content')
    obtain ⟨h', heq'⟩ := ih t fun c hc => hne c (List.mem_cons_of_mem a hc)
    cases content' with
    | nil =>
      refine ⟨by simp, ?_⟩
      simp [findCloseBr, ha]
    | cons b content'' =>
      refine ⟨by simp; omega, ?_⟩
      simp only [List.cons_append, findCloseBr, List.append_eq]
      rw [if_neg (by simp [ha])]
      simp only [List.cons_append] at heq'
      rw [heq']
      rfl

theorem stripWs_sandwich (ws1 name ws2 : List Char)
    (hw1 : ws1.all isWsChar = true) (hw2 : ws2.all isWsChar = true)
    (hname : name ≠ []) (hh : isWsChar (name.headD 'a') = false)
    (hl : isWsChar (name.reverse.headD 'a') = false) :
    stripWs (ws1 ++ (name ++ ws2)) = name := by
  obtain ⟨c, name', rfl⟩ : ∃ c n', name = c :: n' := by
    cases name with
    | nil => exact absurd rfl hname
    | cons c n' => exact ⟨c, n', rfl⟩
  unfold stripWs
  rw [dropWhile_all_append _ _ _ hw1]
  have hc : isWsChar c = false := by simpa using hh
  rw [List.cons_append, dropWhile_cons_of_head_false _ _ _ hc]
  rw [← List.cons_append, List.reverse_append]
  rw [dropWhile_all_append _ _ _ (by rw [List.all_reverse]; exact hw2)]
  cases hrev : (c :: name').reverse with
  | nil => simp at hrev
  | cons d rest =>
    have hd : isWsChar d = false := by
      rw [hrev] at hl
      simpa using hl
    rw [dropWhile_cons_of_head_false _ _ _ hd, ← hrev, List.reverse_reverse]

theorem renderList_placeholder (m : List (String × Option String))
    (ws1 name ws2 t : List Char)
    (hw1 : ws1.all isWsChar = true) (hw2 : ws2.all isWsChar = true)
    (hname : name ≠ []) (hnc : name.all isNameChar = true)
    (hh : isWsChar (name.headD 'a') = false)
    (hl : isWsChar (name.reverse.headD 'a') = false) :
    renderList m ('{' :: '{' :: (ws1 ++ (name ++ (ws2 ++ '}' :: '}' :: t)))) =
      (lookupVal m (String.mk name)).toList ++ renderList m t := by
  have hcontent : ∀ c ∈ ws1 ++ (name ++ ws2), c ≠ '}' := by
    intro c hc heq
    subst heq
    simp only [List.mem_append] at hc
    rcases hc with h | h | h
    · have := List.all_eq_true.mp hw1 _ h
      exact absurd this (by decide)
    · have := List.all_eq_true.mp hnc _ h
      exact absurd this (by decide)
    · have := List.all_eq_true.mp hw2 _ h
      exact absurd this (by decide)
  have hstrip := stripWs_sandwich ws1 name ws2 hw1 hw2 hname hh hl
  obtain ⟨hpf, hfc⟩ := findCloseBr_append (ws1 ++ (name ++ ws2)) t hcontent
  have hshape : ws1 ++ (name ++ (ws2 ++ '}' :: '}' :: t)) =
      (ws1 ++ (name ++ ws2)) ++ '}' :: '}' :: t := by simp [List.append_assoc]
  rw [hshape]
  have hval : validContent (ws1 ++ (name ++ ws2)) = true := by
    unfold validContent
    rw [hstrip]
    cases name with
    | nil => exact absurd rfl hname
    | cons c n' => simp [hnc]
  rw [renderList.eq_def]
  split
  · rename_i heq
    simp at heq
  · rename_i r heq
    injection heq with h1 h2
    injection h2 with h3 h4
    subst h4
    rw [hfc]
    show (if validContent (ws1 ++ (name ++ ws2)) then
        (lookupVal m (String.mk (stripWs (ws1 ++ (name ++ ws2))))).toList ++ renderList m t
      else '{' :: renderList m ('{' :: ((ws1 ++ (name ++ ws2)) ++ '}' :: '}' :: t))) =
      (lookupVal m (String.mk name)).toList ++ renderList m t
    rw [if_pos hval, hstrip]
  · rename_i c2 r hcontra heqn
    injection heqn with h1 h2
    exact (hcontra _ h1.symm h2.symm).elim

theorem renderList_no_brace_append (m : List (String × Option String)) :
    ∀ (s t : List Char), '{' ∉ s →
    renderList m (s ++ t) = s ++ renderList m t := by
  intro s
  induction s with
  | nil => simp
  | cons c s' ih =>
    intro t hc
    have hcne : c ≠ '{' := by
      intro h
      exact hc (h ▸ List.mem_cons_self c s')
    have hs' : '{' ∉ s' := fun h => hc (List.mem_cons_of_mem c h)
    rw [List.cons_append, renderList_cons_ne m c _ hcne, ih t hs']
    rfl

theorem renderList_flatten (m : List (String × Option String)) :
    ∀ segs : List TemplateSeg, (∀ seg ∈ segs, segOK seg = true) →
    renderList m (flattenTemplate segs) = renderedTemplate m segs := by
  intro segs
  induction segs with
  | nil => intro _; exact renderList_nil m
  | cons seg rest ih =>
    intro h
    have hs := h seg (List.mem_cons_self seg rest)
    have hr := ih fun s hs' => h s (List.mem_cons_of_mem seg hs')
    cases seg with
    | lit s =>
      have hnb : '{' ∉ s := by
        simp only [segOK] at hs
        simp at hs
        exact hs
      show renderList m (s ++ flattenTemplate rest) = s ++ renderedTemplate m rest
      rw [renderList_no_brace_append m s _ hnb, hr]
    | ref ws1 name ws2 =>
      simp only [segOK, Bool.and_eq_true] at hs
      obtain ⟨⟨⟨⟨⟨h1, h2⟩, h3⟩, h4⟩, h5⟩, h6⟩ := hs
      have hname : name ≠ [] := by
        simpa using h3
      have hh : isWsChar (name.headD 'a') = false := by
        simpa using h5
      have hl : isWsChar (name.reverse.headD 'a') = false := by
        simpa using h6
      show renderList m
        ('{' :: '{' :: (ws1 ++ name ++ ws2 ++ '}' :: '}' :: flattenTemplate rest)) = _
      rw [show ws1 ++ name ++ ws2 ++ '}' :: '}' :: flattenTemplate rest =
        ws1 ++ (name ++ (ws2 ++ '}' :: '}' :: flattenTemplate rest)) by
          simp [List.append_assoc]]
      rw [renderList_placeholder m ws1 name ws2 (flattenTemplate rest) h1 h2 hname h4 hh hl]
      rw [hr]
      rfl

theorem dropWhile_eq_strip_append (l : List Char) :
    List.dropWhile isWsChar l =
      stripWs l ++ (List.takeWhile isWsChar (List.dropWhile isWsChar l).reverse).reverse := by
  calc List.dropWhile isWsChar l
      = ((List.dropWhile isWsChar l).reverse).reverse := (List.reverse_reverse _).symm
    _ = (List.takeWhile isWsChar (List.dropWhile isWsChar l).reverse ++
          List.dropWhile isWsChar (List.dropWhile isWsChar l).reverse).reverse := by
        rw [List.takeWhile_append_dropWhile]
    _ = (List.dropWhile isWsChar (List.dropWhile isWsChar l).reverse).reverse ++
          (List.takeWhile isWsChar (List.dropWhile isWsChar l).reverse).reverse := by
        rw [List.reverse_append]
    _ = stripWs l ++ (List.takeWhile isWsChar (List.dropWhile isWsChar l).reverse).reverse :=
        rfl

theorem stripWs_decomp (l : List Char) :
    ∃ w1 w2, l = w1 ++ stripWs l ++ w2 ∧ w1.all isWsChar = true ∧ w2.all isWsChar = true := by
  refine ⟨List.takeWhile isWsChar l,
    (List.takeWhile isWsChar (List.dropWhile isWsChar l).reverse).reverse, ?_, ?_, ?_⟩
  · conv_lhs =>
      rw [← List.takeWhile_append_dropWhile isWsChar l]
      rw [dropWhile_eq_strip_append l]
    rw [List.append_assoc]
  · exact List.all_eq_true.mpr fun x hx => List.mem_takeWhile_imp hx
  · rw [List.all_reverse]
    exact List.all_eq_true.mpr fun x hx => List.mem_takeWhile_imp hx

theorem validContent_no_close (content : List Char) (h : validContent content = true) :
    ∀ c ∈ content, c ≠ '}' := by
  intro c hc heq
  subst heq
  unfold validContent at h
  rw [Bool.or_eq_true] at h
  rcases h with h | h
  · rw [Bool.and_eq_true] at h
    obtain ⟨_, h2⟩ := h
    obtain ⟨w1, w2, hdec, hw1, hw2⟩ := stripWs_decomp content
    rw [hdec] at hc
    simp only [List.mem_append] at hc
    rcases hc with (hcc | hcc) | hcc
    · exact absurd (List.all_eq_true.mp hw1 _ hcc) (by decide)
    · exact absurd (List.all_eq_true.mp h2 _ hcc) (by decide)
    · exact absurd (List.all_eq_true.mp hw2 _ hcc) (by decide)
  · rw [Bool.and_eq_true] at h
    exact absurd (List.all_eq_true.mp h.1 _ hc) (by decide)

theorem findCloseBr_sound : ∀ (l : List Char)
    (q : {q : List Char × List Char // q.2.length + 2 ≤ l.length}),
    findCloseBr l = some q → l = q.1.1 ++ '}' :: '}' :: q.1.2 := by
  intro l
  induction l with
  | nil => intro q h; simp [findCloseBr] at h
  | cons c t ih =>
    intro q h
    cases t with
    | nil => simp [findCloseBr] at h
    | cons d r =>
      rw [findCloseBr] at h
      split at h
      · rename_i hbr
        obtain ⟨h1, h2⟩ := hbr
        subst h1
        subst h2
        injection h with h3
        rw [← h3]
        rfl
      · cases hfc : findCloseBr (d :: r) with
        | none => rw [hfc] at h; simp at h
        | some q' =>
          rw [hfc] at h
          have := ih q' hfc
          injection h with h3
          rw [← h3]
          exact congrArg (List.cons c) this

theorem matchAt_lt (l : List Char) (i : Nat) (h : MatchAt l i) : i < l.length := by
  obtain ⟨content, rest, hdrop, _⟩ := h
  by_contra hge
  rw [List.drop_eq_nil_of_le (by omega)] at hdrop
  exact List.noConfusion hdrop

theorem matchAtB_iff (l : List Char) (i : Nat) : matchAtB l i = true ↔ MatchAt l i := by
  constructor
  · intro hb
    unfold matchAtB at hb
    split at hb
    · rename_i r heq
      split at hb
      · rename_i q hfc
        have hsound := findCloseBr_sound r q hfc
        exact ⟨q.1.1, q.1.2, by rw [heq, ← hsound], hb⟩
      · exact Bool.noConfusion hb
    · exact Bool.noConfusion hb
  · rintro ⟨content, rest, hdrop, hval⟩
    obtain ⟨hpf, hfc⟩ :=
      findCloseBr_append content rest (validContent_no_close content hval)
    rw [matchAtB.eq_def, hdrop]
    split
    · rename_i r heq
      injection heq with h1 h2
      injection h2 with h3 h4
      subst h4
      rw [hfc]
      exact hval
    · rename_i x hcontra
      exact (hcontra (content ++ '}' :: '}' :: rest) rfl).elim

theorem not_matchAt_below (l : List Char) (k : Nat)
    (hb : ∀ i, i < k → matchAtB l i = false) : ∀ j, j < k → ¬ MatchAt l j := by
  intro j hj hm
  have := (matchAtB_iff l j).mpr hm
  rw [hb j hj] at this
  exact Bool.noConfusion this

theorem not_matchAt_all (l : List Char)
    (hb : ∀ i, i < l.length → matchAtB l i = false) : ∀ i, ¬ MatchAt l i := by
  intro i hm
  exact not_matchAt_below l l.length hb i (matchAt_lt l i hm) hm

theorem renderList_match_head (m : List (String × Option String)) (content rest : List Char)
    (hval : validContent content = true) :
    renderList m ('{' :: '{' :: (content ++ '}' :: '}' :: rest)) =
      (lookupVal m (String.mk (stripWs content))).toList ++ renderList m rest := by
  obtain ⟨hpf, hfc⟩ :=
    findCloseBr_append content rest (validContent_no_close content hval)
  rw [renderList.eq_def]
  split
  · rename_i heq
    simp at heq
  · rename_i r heq
    injection heq with h1 h2
    injection h2 with h3 h4
    subst h4
    rw [hfc]
    show (if validContent content then
        (lookupVal m (String.mk (stripWs content))).toList ++ renderList m rest
      else '{' :: renderList m ('{' :: (content ++ '}' :: '}' :: rest))) =
      (lookupVal m (String.mk (stripWs content))).toList ++ renderList m rest
    rw [if_pos hval]
  · rename_i c2 r hcontra heqn
    injection heqn with h1 h2
    exact (hcontra _ h1.symm h2.symm).elim

theorem renderList_brace_cons_ne (m : List (String × Option String)) (c2 : Char)
    (l : List Char) (hc2 : c2 ≠ '{') :
    renderList m ('{' :: c2 :: l) = '{' :: renderList m (c2 :: l) := by
  rw [renderList.eq_def]
  split
  · rename_i heq
    simp at heq
  · rename_i r heq
    injection heq with h1 h2
    injection h2 with h3 h4
    exact absurd h3 hc2
  · rename_i c3 r heq
    injection heq with h1 h2
    subst h1
    subst h2
    rfl

theorem renderList_cons_of_not_match (m : List (String × Option String)) (c : Char)
    (l : List Char) (h : ¬ MatchAt (c :: l) 0) :
    renderList m (c :: l) = c :: renderList m l := by
  by_cases hc : c = '{'
  · subst hc
    cases l with
    | nil =>
      rw [renderList.eq_def]
      split
      · rename_i heq
        simp at heq
      · rename_i r heq
        injection heq with h1 h2
        simp at h2
      · rename_i c3 r heq
        injection heq with h1 h2
        subst h1
        subst h2
        rw [renderList_nil m]
    | cons c2 l' =>
      by_cases hc2 : c2 = '{'
      · subst hc2
        rw [renderList.eq_def]
        split
        · rename_i heq
          simp at heq
        · rename_i r heq
          injection heq with h1 h2
          injection h2 with h3 h4
          subst h4
          cases hfc : findCloseBr l' with
          | none => rfl
          | some q =>
            cases hval : validContent q.1.1 with
            | false =>
              show (if validContent q.1.1 then
                  (lookupVal m (String.mk (stripWs q.1.1))).toList ++ renderList m q.1.2
                else '{' :: renderList m ('{' :: l')) = '{' :: renderList m ('{' :: l')
              rw [hval]
              simp
            | true =>
              have hsound := findCloseBr_sound l' q hfc
              refine absurd ⟨q.1.1, q.1.2, ?_, hval⟩ h
              rw [List.drop_zero]
              exact congrArg (fun t => '{' :: '{' :: t) hsound
        · rename_i c3 r hcontra heqn
          injection heqn with h1 h2
          exact (hcontra _ h1.symm h2.symm).elim
      · exact renderList_brace_cons_ne m c2 l' hc2
  · exact renderList_cons_ne m c l hc

theorem renderList_no_match (m : List (String × Option String)) :
    ∀ l : List Char, (∀ i, ¬ MatchAt l i) → renderList m l = l := by
  intro l
  induction l with
  | nil => intro _; exact renderList_nil m
  | cons c l' ih =>
    intro h
    rw [renderList_cons_of_not_match m c l' (h 0)]
    rw [ih fun i hm => h (i + 1) (by simpa [List.drop_succ_cons] using hm)]

theorem renderList_leftmost (m : List (String × Option String)) :
    ∀ (i : Nat) (l content rest : List Char),
    (∀ j, j < i → ¬ MatchAt l j) →
    l.drop i = '{' :: '{' :: (content ++ '}' :: '}' :: rest) →
    validContent content = true →
    renderList m l = l.take i ++
      ((lookupVal m (String.mk (stripWs content))).toList ++ renderList m rest) := by
  intro i
  induction i with
  | zero =>
    intro l content rest _ hdrop hval
    rw [List.drop_zero] at hdrop
    subst hdrop
    rw [List.take_zero, List.nil_append]
    exact renderList_match_head m content rest hval
  | succ i' ih =>
    intro l content rest hlt hdrop hval
    cases l with
    | nil => simp at hdrop
    | cons c l' =>
      rw [renderList_cons_of_not_match m c l' (hlt 0 (Nat.succ_pos i'))]
      rw [List.drop_succ_cons] at hdrop
      rw [ih l' content rest
        (fun j hj hm => hlt (j + 1) (by omega) (by simpa [List.drop_succ_cons] using hm))
        hdrop hval]
      rw [List.take_succ_cons]
      rfl

/-- C7: characterization of build_prompt_with_references on every template
string.  First, a template in which the placeholder pattern matches
nowhere - including templates with malformed placeholder text and stray
braces - is returned verbatim.  Second, at the leftmost position where
the pattern does match, the placeholder is replaced by the stringified
mapped value of its trimmed name, by the empty string when the name is
absent from the mapping, and by the empty string when its value is None,
with the text before the match kept verbatim and scanning resuming after
the match; iterating this equation replaces every well-formed
placeholder left to right.  Third, end to end: a template assembled from
brace-free literals and well-formed placeholders renders to the
segment-wise substitution.  The renderer is a total function, so missing
keys never raise. -/
theorem c7_template_renderer (template : String) (m : List (String × Option String)) :
    ((∀ i, ¬ MatchAt template.toList i) →
      build_prompt_with_references template m = template) ∧
    (∀ i content rest,
      (∀ j, j < i → ¬ MatchAt template.toList j) →
      template.toList.drop i = '{' :: '{' :: (content ++ '}' :: '}' :: rest) →
      validContent content = true →
      build_prompt_with_references template m =
        String.mk (template.toList.take i ++
          ((match m.lookup (String.mk (stripWs content)) with
            | none => ""
            | some none => ""
            | some (some v) => v).toList ++ renderList m rest))) ∧
    (∀ segs : List TemplateSeg,
      template = String.mk (flattenTemplate segs) →
      (∀ seg ∈ segs, segOK seg = true) →
      build_prompt_with_references template m = String.mk (renderedTemplate m segs)) := by
  refine ⟨?_, ?_, ?_⟩
  · intro h
    show String.mk (renderList m template.toList) = template
    rw [renderList_no_match m template.toList h]
    rfl
  · intro i content rest hlt hdrop hval
    show String.mk (renderList m template.toList) = _
    rw [renderList_leftmost m i template.toList content rest hlt hdrop hval]
    rfl
  · intro segs hflat hok
    subst hflat
    show String.mk (renderList m (flattenTemplate segs)) = String.mk (renderedTemplate m segs)
    rw [renderList_flatten m segs hok]

theorem c7_template_renderer_witness :
    (∀ i, ¬ MatchAt sampleNoMatchTemplate.toList i) ∧
    build_prompt_with_references sampleNoMatchTemplate sampleRow = sampleNoMatchTemplate ∧
    (∀ j, j < 1 → ¬ MatchAt ("x\x7b\x7b a \x7d\x7dy" : String).toList j) ∧
    ("x\x7b\x7b a \x7d\x7dy" : String).toList.drop 1 =
      '{' :: '{' :: ([' ', 'a', ' '] ++ '}' :: '}' :: ['y']) ∧
    validContent [' ', 'a', ' '] = true ∧
    build_prompt_with_references "x\x7b\x7b a \x7d\x7dy" sampleRow2 =
      String.mk (("x\x7b\x7b a \x7d\x7dy" : String).toList.take 1 ++
        ((match sampleRow2.lookup (String.mk (stripWs [' ', 'a', ' '])) with
          | none => ""
          | some none => ""
          | some (some v) => v).toList ++ renderList sampleRow2 ['y'])) ∧
    (∀ seg ∈ sampleSegs, segOK seg = true) ∧
    build_prompt_with_references (String.mk (flattenTemplate sampleSegs)) sampleRow =
      String.mk (renderedTemplate sampleRow sampleSegs) :=
  ⟨not_matchAt_all _ (by decide),
    (c7_template_renderer sampleNoMatchTemplate sampleRow).1 (not_matchAt_all _ (by decide)),
    not_matchAt_below _ 1 (by decide),
    by decide,
    by decide,
    (c7_template_renderer "x\x7b\x7b a \x7d\x7dy" sampleRow2).2.1 1 [' ', 'a', ' '] ['y']
      (not_matchAt_below _ 1 (by decide)) (by decide) (by decide),
    by decide,
    (c7_template_renderer (String.mk (flattenTemplate sampleSegs)) sampleRow).2.2
      sampleSegs rfl (by decide)⟩
